import Mathlib

/-!
Verification of the chunk-distribution/reassembly core of the file
distributor gateway (cmd/distributor/main.go): the splitter, the in-memory
backend client, the chunk registry, the concurrent fan-out upload protocol
and the sequential fan-in download protocol.

Go byte slices are modelled as a header over an underlying array (offset and
length), so that Go's capacity-based slice-expression bounds are faithful.
The concurrent upload (one errgroup task per part, two atomic actions each:
the locked registry append and the backend SaveChunk) is modelled as a
small-step system indexed by an interleaving schedule.
-/

namespace FileDistributor

/-- Byte values carried in Go byte slices. -/
abbrev Byte := Nat

/-- Model of a Go slice header: underlying array, offset and length.
The visible bytes are the `len` bytes of `arr` starting at `off`; the
capacity is `arr.length - off`, as in Go, where a slice expression may
reach past the length up to the capacity. -/
structure GoSlice where
  arr : List Byte
  off : Nat
  len : Nat
  deriving DecidableEq, Inhabited

/-- Bytes visible through the slice header. -/
def GoSlice.bytes (s : GoSlice) : List Byte :=
  (s.arr.drop s.off).take s.len

/-- Capacity of the slice header, Go's cap. -/
def GoSlice.cap (s : GoSlice) : Nat :=
  s.arr.length - s.off

/-- A whole-array slice, as produced for a freshly allocated buffer. -/
def GoSlice.ofList (l : List Byte) : GoSlice :=
  { arr := l, off := 0, len := l.length }

/-- Go slice expression s[lo:hi] on a slice: legal iff lo ≤ hi ≤ cap s
(Go checks against the capacity, not the length); out of range is a runtime
panic, modelled as none. -/
def GoSlice.slice (s : GoSlice) (lo hi : Nat) : Option GoSlice :=
  if lo ≤ hi ∧ hi ≤ s.cap then some { arr := s.arr, off := s.off + lo, len := hi - lo } else none

/-- Lookup in a Go map modelled as an association list. -/
def mapGet {α : Type} : List (String × α) → String → Option α
  | [], _ => none
  | (k1, v) :: rest, k => if k1 = k then some v else mapGet rest k

/-- Assignment m[k] = v in a Go map modelled as an association list:
replaces the existing binding if present, otherwise adds one. -/
def mapSet {α : Type} : List (String × α) → String → α → List (String × α)
  | [], k, v => [(k, v)]
  | (k1, v1) :: rest, k, v => if k1 = k then (k, v) :: rest else (k1, v1) :: mapSet rest k v

/-- The chunk struct: order and raw data (main.go, type chunk). -/
structure chunk where
  order : Nat
  data : GoSlice
  deriving DecidableEq, Inhabited

/-- The in-memory backend variant (main.go, type mockStorageServer):
an address and a storage map keyed by resource name alone. -/
structure mockStorageServer where
  addr : String
  storage : List (String × chunk)
  deriving DecidableEq, Inhabited

/-- Error message produced by the mock GetChunk for a missing key
(Go: fmt.Errorf with the name rendered by the q verb). -/
def notFoundMsg (nm : String) : String :=
  "resource \"" ++ nm ++ "\" not found"

/-- mockStorageServer.GetChunk: look the name up in the storage map;
a missing key is the not-found error. -/
def mockStorageServer.GetChunk (s : mockStorageServer) (nm : String) : Except String chunk :=
  match mapGet s.storage nm with
  | none => Except.error (notFoundMsg nm)
  | some ch => Except.ok ch

/-- mockStorageServer.SaveChunk: store the chunk under the name alone
(not name plus order), overwriting any previous chunk for that name;
it never fails. -/
def mockStorageServer.SaveChunk (s : mockStorageServer) (nm : String) (order : Nat) (data : GoSlice) : mockStorageServer :=
  { s with storage := mapSet s.storage nm { order := order, data := data } }

/-- newStorageClient: a fresh mock backend with empty storage. -/
def newStorageClient (addr : String) : mockStorageServer :=
  { addr := addr, storage := [] }

/-- The configured backend addresses (main.go, var addresses). -/
def addresses : List String :=
  ["http://localhost:8081", "http://localhost:8082", "http://localhost:8083",
   "http://localhost:8084", "http://localhost:8085", "http://localhost:8086"]

/-- The chunk-location record (main.go, type fileChunkInfo). -/
structure fileChunkInfo where
  ResourceID : String
  FileName : String
  Order : Nat
  URL : String
  deriving DecidableEq, Inhabited

/-- The record appended by uploadFn for part i (URL is the TBD placeholder). -/
def mkRecord (rid fname : String) (i : Nat) : fileChunkInfo :=
  { ResourceID := rid, FileName := fname, Order := i, URL := "TBD" }

/-- The mutable state shared by the handlers: the backend clients and the
chunk registry fileChunksDB (guarded in Go by dbMutex; every model step that
touches it corresponds to one critical section). -/
structure SysState where
  servers : List mockStorageServer
  fileChunksDB : List (String × List fileChunkInfo)
  deriving DecidableEq, Inhabited

/-- Go read fileChunksDB[resourceID]: a missing key yields the nil slice. -/
def dbGet (st : SysState) (rid : String) : List fileChunkInfo :=
  (mapGet st.fileChunksDB rid).getD []

/-- buildPartName (main.go): only used for the progress print in uploadFn. -/
def buildPartName (filename : String) (part : Nat) : String :=
  filename ++ "-part-" ++ toString part

/-- splitFile (main.go): partition the buffer into exactly nservers
contiguous parts; each part i below the last gets file[i*partSize:(i+1)*partSize]
with partSize = len/nservers, and the last part gets file[(n-1)*partSize:].
All these slice expressions are in bounds, so they are written directly as
headers. (Go would panic by zero division for zero backends; the program
always configures six.) -/
def splitFile (file : GoSlice) (nservers : Nat) : List GoSlice :=
  let parts := nservers
  let partSize := file.len / parts
  (List.range parts).map (fun i =>
    if i = parts - 1 then { arr := file.arr, off := file.off + i * partSize, len := file.len - i * partSize }
    else { arr := file.arr, off := file.off + i * partSize, len := partSize })

/-- A sequential byte reader, modelling the uploaded multipart file stream:
fixed contents and a read position. -/
structure ByteReader where
  data : List Byte
  pos : Nat
  deriving DecidableEq, Inhabited

/-- io.Copy(h, file): consumes the stream from the current position to EOF
and returns the bytes read. -/
def readToEnd (r : ByteReader) : List Byte × ByteReader :=
  (r.data.drop r.pos, { r with pos := r.data.length })

/-- io.ReadAll(file): reads the remaining bytes into a fresh buffer.
Go's io.ReadAll allocates an initial buffer of capacity 512, so for a
remainder of up to 512 bytes the returned slice has capacity 512 with the
unwritten tail zeroed; the upload handler always reaches this call with an
already exhausted reader (remainder empty), for which this model is exact. -/
def ioReadAll (r : ByteReader) : GoSlice × ByteReader :=
  let rem := r.data.drop r.pos
  ({ arr := rem ++ List.replicate (512 - rem.length) 0, off := 0, len := rem.length },
   { r with pos := r.data.length })

/-- State of one in-flight upload: the shared system state plus one program
counter per errgroup task. pc 0: before the locked registry append;
pc 1: record appended, SaveChunk not yet called; pc 2: SaveChunk done. -/
structure UploadRun where
  sys : SysState
  pcs : List Nat
  deriving DecidableEq, Inhabited

/-- The locked registry append performed by uploadFn for part i:
read fileChunksDB[resourceID], append the record, store it back
(one critical section of dbMutex). -/
def appendRecord (st : SysState) (rid fname : String) (i : Nat) : SysState :=
  { st with fileChunksDB := mapSet st.fileChunksDB rid (dbGet st rid ++ [mkRecord rid fname i]) }

/-- The SaveChunk call performed by uploadFn for part i: servers[i].SaveChunk
(resourceID, i, part). In the program i is always in range. -/
def saveOnServer (st : SysState) (i : Nat) (rid : String) (data : GoSlice) : SysState :=
  match st.servers[i]? with
  | none => st
  | some srv => { st with servers := st.servers.set i (srv.SaveChunk rid i data) }

/-- One atomic action of upload task i, following uploadFn: first the locked
registry append, then the SaveChunk; other indices are no-ops. -/
def taskStep (rid fname : String) (parts : List GoSlice) (u : UploadRun) (i : Nat) : UploadRun :=
  match u.pcs[i]? with
  | none => u
  | some 0 => { sys := appendRecord u.sys rid fname i, pcs := u.pcs.set i 1 }
  | some 1 => { sys := saveOnServer u.sys i rid (parts.getD i default), pcs := u.pcs.set i 2 }
  | some _ => u

/-- Run the upload tasks under an interleaving schedule: each entry names the
task that performs its next atomic action. -/
def runSchedule (rid fname : String) (parts : List GoSlice) (u : UploadRun) (sched : List Nat) : UploadRun :=
  sched.foldl (taskStep rid fname parts) u

/-- Result of the upload handler: the final run state plus the response
payload fields (resource identifier and checksum). -/
structure UploadOutcome where
  final : UploadRun
  resource : String
  checksum : String

/-- uploadHandler (main.go), after request validation: hash the full stream
(io.Copy into sha256), then io.ReadAll the same reader, split the result,
mint the resource identifier (passed in as rid, modelling generateResourceID),
pre-create the empty registry entry under the lock, and run one task per part.
The cryptographic digest plus hex rendering is the hashHex parameter; the
scheduler's interleaving of the tasks is the sched parameter. -/
def uploadHandler (hashHex : List Byte → String) (st : SysState) (rid fname : String)
    (content : List Byte) (sched : List Nat) : UploadOutcome :=
  let r0 : ByteReader := { data := content, pos := 0 }
  let copied := readToEnd r0
  let checksum := hashHex copied.1
  let afterAll := ioReadAll copied.2
  let fileBytes := afterAll.1
  let parts := splitFile fileBytes st.servers.length
  let st1 : SysState := { st with fileChunksDB := mapSet st.fileChunksDB rid [] }
  let u0 : UploadRun := { sys := st1, pcs := List.replicate parts.length 0 }
  let uf := runSchedule rid fname parts u0 sched
  { final := uf, resource := rid, checksum := checksum }

/-- Outcome of the download handler: the HTTP error classes, the runtime
panic, or the served file name and content bytes. -/
inductive DownloadResult where
  | badRequest
  | notFound
  | chunkError
  | panicked
  | ok (fileName : String) (content : List Byte)
  deriving DecidableEq

/-- The download loop of downloadHandler over the records of the registry
entry, accumulating the fetch log (backend index and chunk actually returned
by GetChunk) and the output buffer. Per record: index servers by the Order
field (out of range would panic), GetChunk by the resource identifier, log
the chunk with the slice expression data[:10] (panics when cap < 10), then
append the chunk bytes. After the loop the handler logs content[:10], which
panics when the assembled content is shorter than 10 bytes. -/
def downloadLoop (servers : List mockStorageServer) (rid fname : String) :
    List fileChunkInfo → List (Nat × chunk) → List Byte → DownloadResult × List (Nat × chunk)
  | [], fetched, buf =>
    (if buf.length < 10 then DownloadResult.panicked else DownloadResult.ok fname buf, fetched)
  | info :: rest, fetched, buf =>
    match servers[info.Order]? with
    | none => (DownloadResult.panicked, fetched)
    | some srv =>
      match srv.GetChunk rid with
      | Except.error _ => (DownloadResult.chunkError, fetched)
      | Except.ok ch =>
        match ch.data.slice 0 10 with
        | none => (DownloadResult.panicked, fetched ++ [(info.Order, ch)])
        | some _ => downloadLoop servers rid fname rest (fetched ++ [(info.Order, ch)]) (buf ++ ch.data.bytes)

/-- downloadHandler (main.go) for a GET request: an empty resource_id is a
bad request; a registry entry that is absent or empty is not found; otherwise
run the loop over the stored records, taking the file name from the first
record. Returns the result together with the fetch log. -/
def downloadHandler (st : SysState) (resourceID : String) : DownloadResult × List (Nat × chunk) :=
  if resourceID = "" then (DownloadResult.badRequest, [])
  else
    match mapGet st.fileChunksDB resourceID with
    | none => (DownloadResult.notFound, [])
    | some [] => (DownloadResult.notFound, [])
    | some (c :: cs) => downloadLoop st.servers resourceID c.FileName (c :: cs) [] []

/-- A record can be processed without aborting: its backend exists, GetChunk
succeeds, and the logged slice expression data[:10] is in bounds. -/
def fetchOk (servers : List mockStorageServer) (rid : String) (info : fileChunkInfo) : Prop :=
  ∃ srv ch, servers[info.Order]? = some srv ∧ srv.GetChunk rid = Except.ok ch ∧
    ch.data.slice 0 10 ≠ none

/-- Apply a sequence of SaveChunk calls (name, order, data) to a backend. -/
def applySaves (s : mockStorageServer) : List (String × Nat × GoSlice) → mockStorageServer
  | [] => s
  | (nm, o, d) :: rest => applySaves (s.SaveChunk nm o d) rest

/-- The six configured in-memory backends at process start. -/
def initialServers : List mockStorageServer :=
  addresses.map newStorageClient

/-- Process-start state: six fresh backends, empty registry. -/
def initialState : SysState :=
  { servers := initialServers, fileChunksDB := [] }

/-- A stand-in digest function for concrete runs (its value is irrelevant
to the properties evaluated on them). -/
def trivialHash : List Byte → String :=
  fun _ => ""

/-- The bytes of "hello world!", a 12-byte upload content. -/
def helloBytes : List Byte :=
  [104, 101, 108, 108, 111, 32, 119, 111, 114, 108, 100, 33]

/-- The sequential schedule: each task runs both its actions in index order. -/
def schedSeq : List Nat :=
  [0, 0, 1, 1, 2, 2, 3, 3, 4, 4, 5, 5]

/-- A schedule in which task 1 wins the race to the registry lock and
appends its record before task 0 does. -/
def schedSwap : List Nat :=
  [1, 0, 0, 1, 2, 2, 3, 3, 4, 4, 5, 5]

/-- A state whose resource r has two chunks: the first is 5 bytes long inside
a 12-byte underlying array (capacity 12), the second is 10 bytes long. -/
def shortChunkState : SysState :=
  { servers :=
      [ { addr := "s0",
          storage := [("r", { order := 0, data := { arr := [1, 2, 3, 4, 5, 6, 7, 8, 9, 10, 11, 12], off := 0, len := 5 } })] },
        { addr := "s1",
          storage := [("r", { order := 1, data := { arr := [20, 21, 22, 23, 24, 25, 26, 27, 28, 29], off := 0, len := 10 } })] } ],
    fileChunksDB :=
      [("r", [ { ResourceID := "r", FileName := "f.txt", Order := 0, URL := "TBD" },
               { ResourceID := "r", FileName := "f.txt", Order := 1, URL := "TBD" } ])] }

/-- A state whose resource r has one record whose backend never stored the
chunk, so GetChunk fails during download. -/
def failingFetchState : SysState :=
  { servers := [newStorageClient "s0"],
    fileChunksDB := [("r", [mkRecord "r" "f.txt" 0])] }

/-- A single fresh backend, for small complete-upload runs. -/
def oneServerState : SysState :=
  { servers := [newStorageClient "a"], fileChunksDB := [] }

/-- The chunk stored by the buggy upload pipeline: empty bytes inside the
capacity-512 buffer io.ReadAll returns for an exhausted reader. -/
def emptyStoredChunk (i : Nat) : chunk :=
  { order := i, data := { arr := List.replicate 512 0, off := 0, len := 0 } }

/-- The single backend of oneServerState after a complete one-part upload. -/
def storedServer0 : mockStorageServer :=
  { addr := "a", storage := [("r", emptyStoredChunk 0)] }




theorem mapGet_mapSet_self {A : Type} (m : List (String × A)) (k : String) (v : A) :
    mapGet (mapSet m k v) k = some v := by
  induction m with
  | nil => simp [mapGet, mapSet]
  | cons h t ih =>
    obtain ⟨k1, v1⟩ := h
    by_cases hk : k1 = k
    · simp [mapGet, mapSet, hk]
    · simp [mapGet, mapSet, hk, ih]

theorem mapGet_mapSet_ne {A : Type} (m : List (String × A)) (k k1 : String) (v : A)
    (h : k1 ≠ k) : mapGet (mapSet m k v) k1 = mapGet m k1 := by
  have hne : ¬ (k = k1) := fun hh => h hh.symm
  induction m with
  | nil => simp [mapGet, mapSet, hne]
  | cons hd t ih =>
    obtain ⟨k2, v2⟩ := hd
    by_cases hk : k2 = k
    · subst hk
      simp [mapGet, mapSet, hne]
    · simp [mapGet, mapSet, hk, ih]

/-- C7: for a nonempty resource identifier whose Registry entry is absent or
empty, downloadHandler fails with the not-found condition and produces no
output bytes and no backend fetches. -/
theorem download_not_found_empty_entry (st : SysState) (rid : String) (hrid : rid ≠ "")
    (h : mapGet st.fileChunksDB rid = none ∨ mapGet st.fileChunksDB rid = some []) :
    downloadHandler st rid = (DownloadResult.notFound, []) := by
  rcases h with h | h <;> simp [downloadHandler, hrid, h]

theorem download_not_found_witness :
    (mapGet initialState.fileChunksDB "x" = none ∨ mapGet initialState.fileChunksDB "x" = some [])
    ∧ downloadHandler initialState "x" = (DownloadResult.notFound, []) :=
  ⟨Or.inl (by decide), download_not_found_empty_entry initialState "x" (by decide) (Or.inl (by decide))⟩

/-- C4: the checksum uploadHandler returns is the digest function applied to
the full, original, unsplit upload content: the bytes io.Copy consumed from
position zero, independent of state, schedule and digest function. -/
theorem upload_checksum_of_original (hashHex : List Byte → String) (st : SysState)
    (rid fname : String) (content : List Byte) (sched : List Nat) :
    (uploadHandler hashHex st rid fname content sched).checksum = hashHex content := by
  simp [uploadHandler, readToEnd]

/-- C2 counterexample: after the reachable schedule step in which task 0 has
performed its locked registry append but not yet its SaveChunk, the record
for part 0 is already visible in the Registry while no backend holds any
chunk for the resource, so records are not appended only after SaveChunk
succeeded. -/
theorem registry_record_before_save_cex :
    dbGet (uploadHandler trivialHash initialState "r" "f.txt" helloBytes [0]).final.sys "r"
        = [mkRecord "r" "f.txt" 0]
    ∧ ∀ s ∈ (uploadHandler trivialHash initialState "r" "f.txt" helloBytes [0]).final.sys.servers,
        mapGet s.storage "r" = none := by
  decide

set_option maxRecDepth 8000 in
/-- C1 code-bug evaluation: uploading the nonempty 12-byte file hello.txt
stores an empty chunk on every one of the six backends, because io.ReadAll
runs on the reader io.Copy has already exhausted; the following download
assembles empty content and panics at the content slice expression, so it
never returns the original bytes. -/
theorem upload_download_roundtrip_broken :
    helloBytes ≠ []
    ∧ (downloadHandler
        (uploadHandler trivialHash initialState "r" "hello.txt" helloBytes schedSeq).final.sys "r").1
        = DownloadResult.panicked
    ∧ (uploadHandler trivialHash initialState "r" "hello.txt" helloBytes schedSeq).final.sys.servers.map
        (fun s => (mapGet s.storage "r").map (fun ch => ch.data.bytes))
        = List.replicate 6 (some []) := by
  decide

set_option maxRecDepth 8000 in
/-- C5 counterexample: under the reachable schedule in which task 1 wins the
registry lock first, the stored record list has Order sequence [1,0,2,3,4,5],
which is not ascending, and download fetches the backends in exactly that
stored order, not in ascending Order. -/
theorem download_order_not_ascending_cex :
    (dbGet (uploadHandler trivialHash initialState "r" "f.txt" helloBytes schedSwap).final.sys "r").map
        (fun rec => rec.Order) = [1, 0, 2, 3, 4, 5]
    ∧ ¬ List.Sorted (fun a b => a ≤ b)
        ((dbGet (uploadHandler trivialHash initialState "r" "f.txt" helloBytes schedSwap).final.sys "r").map
          (fun rec => rec.Order))
    ∧ (downloadHandler
        (uploadHandler trivialHash initialState "r" "f.txt" helloBytes schedSwap).final.sys "r").2.map
        Prod.fst = [1, 0, 2, 3, 4, 5] := by
  decide

/-- C10 counterexample: a download whose first fetched chunk holds only 5
bytes inside a capacity-12 buffer completes without panic and returns the
assembled 15 bytes, so the handler does not panic whenever a fetched chunk is
shorter than 10 bytes, and completion does not require every chunk to hold at
least 10 bytes. -/
theorem download_short_chunk_no_panic_cex :
    (downloadHandler shortChunkState "r").1
        = DownloadResult.ok "f.txt" [1, 2, 3, 4, 5, 20, 21, 22, 23, 24, 25, 26, 27, 28, 29]
    ∧ ∃ p ∈ (downloadHandler shortChunkState "r").2, p.2.data.bytes.length < 10 := by
  decide

theorem splitFile_length (file : GoSlice) (n : Nat) : (splitFile file n).length = n := by
  simp [splitFile]

theorem splitFile_get? (file : GoSlice) (n i : Nat) (hi : i < n) :
    (splitFile file n)[i]? = some (
      if i = n - 1 then
        { arr := file.arr, off := file.off + i * (file.len / n), len := file.len - i * (file.len / n) }
      else
        { arr := file.arr, off := file.off + i * (file.len / n), len := file.len / n }) := by
  simp [splitFile, List.getElem?_map, List.getElem?_range hi]

theorem join_uniform (l : List Byte) (ps : Nat) (m : Nat) :
    ((List.range m).map (fun i => (l.drop (i * ps)).take ps)).flatten = l.take (m * ps) := by
  induction m with
  | zero => simp
  | succ k ih =>
    rw [List.range_succ, List.map_append, List.flatten_append, ih]
    simp only [List.map_cons, List.map_nil, List.flatten_cons, List.flatten_nil, List.append_nil]
    rw [Nat.succ_mul, List.take_add]

theorem splitFile_join (l : List Byte) (N : Nat) (hN : 1 ≤ N) :
    ((splitFile (GoSlice.ofList l) N).map GoSlice.bytes).flatten = l := by
  obtain ⟨M, rfl⟩ : ∃ M, N = M + 1 := ⟨N - 1, by omega⟩
  have hexp : (splitFile (GoSlice.ofList l) (M + 1)).map GoSlice.bytes
      = ((List.range M).map (fun i => (l.drop (i * (l.length / (M + 1)))).take (l.length / (M + 1))))
        ++ [l.drop (M * (l.length / (M + 1)))] := by
    simp only [splitFile, GoSlice.ofList, List.map_map]
    rw [List.range_succ, List.map_append]
    congr 1
    · refine List.map_congr_left (fun i hii => ?_)
      have : i < M := List.mem_range.mp hii
      simp [GoSlice.bytes, Function.comp, Nat.ne_of_lt this]
    · simp only [List.map_cons, List.map_nil, Function.comp]
      have hM : M = M + 1 - 1 := rfl
      simp [GoSlice.bytes, List.take_of_length_le, List.length_drop]
  rw [hexp, List.flatten_append, join_uniform]
  simp [List.take_append_drop]

/-- C3: for every byte buffer and every backend count N with N ≥ 1, splitFile
produces exactly N parts whose concatenation is the original buffer, each of
the first N-1 parts of size L/N rounded down, and the last part absorbing the
remainder L - (N-1)*(L/N); in particular a 601-byte buffer split for 6
backends gives part sizes [100, 100, 100, 100, 100, 101]. -/
theorem splitFile_parts_spec (l : List Byte) (N : Nat) (hN : 1 ≤ N) :
    (splitFile (GoSlice.ofList l) N).length = N ∧
    ((splitFile (GoSlice.ofList l) N).map GoSlice.bytes).flatten = l ∧
    (∀ i, i < N - 1 →
      ((splitFile (GoSlice.ofList l) N).getD i default).bytes.length = l.length / N) ∧
    ((splitFile (GoSlice.ofList l) N).getD (N - 1) default).bytes.length
      = l.length - (N - 1) * (l.length / N) ∧
    (l.length = 601 → N = 6 →
      (splitFile (GoSlice.ofList l) N).map (fun p => p.bytes.length) = [100, 100, 100, 100, 100, 101]) := by
  refine ⟨splitFile_length _ _, splitFile_join l N hN, ?_, ?_, ?_⟩
  · intro i hi
    have hiN : i < N := by omega
    have hg := splitFile_get? (GoSlice.ofList l) N i hiN
    rw [if_neg (by omega : ¬ (i = N - 1))] at hg
    have hD : (splitFile (GoSlice.ofList l) N).getD i default
        = { arr := l, off := 0 + i * (l.length / N), len := l.length / N } := by
      rw [List.getD_eq_getElem?_getD, hg]
      rfl
    rw [hD]
    simp only [GoSlice.bytes, List.length_take, List.length_drop]
    have h1 : (i + 1) * (l.length / N) ≤ N * (l.length / N) :=
      Nat.mul_le_mul_right _ (by omega)
    have h2 : N * (l.length / N) ≤ l.length := by
      rw [Nat.mul_comm]
      exact Nat.div_mul_le_self l.length N
    have h3 : i * (l.length / N) + l.length / N ≤ l.length := by
      rw [Nat.succ_mul] at h1
      omega
    omega
  · have hg := splitFile_get? (GoSlice.ofList l) N (N - 1) (by omega)
    rw [if_pos rfl] at hg
    have hD : (splitFile (GoSlice.ofList l) N).getD (N - 1) default
        = { arr := l, off := 0 + (N - 1) * (l.length / N), len := l.length - (N - 1) * (l.length / N) } := by
      rw [List.getD_eq_getElem?_getD, hg]
      rfl
    rw [hD]
    simp only [GoSlice.bytes, List.length_take, List.length_drop]
    omega
  · intro hL hN6
    subst hN6
    have h6 : List.range 6 = [0, 1, 2, 3, 4, 5] := rfl
    simp only [splitFile, GoSlice.ofList, h6, List.map_cons, List.map_nil, hL]
    norm_num [GoSlice.bytes, hL]

theorem splitFile_parts_spec_witness :
    1 ≤ 6 ∧ (splitFile (GoSlice.ofList (List.replicate 601 7)) 6).map (fun p => p.bytes.length)
      = [100, 100, 100, 100, 100, 101] :=
  ⟨by decide,
   (splitFile_parts_spec (List.replicate 601 7) 6 (by decide)).2.2.2.2 (by rw [List.length_replicate]) rfl⟩

theorem slice_ten_iff (s : GoSlice) : s.slice 0 10 ≠ none ↔ 10 ≤ s.cap := by
  by_cases h : 10 ≤ s.cap <;> simp [GoSlice.slice, h]

theorem downloadLoop_abort (servers : List mockStorageServer) (rid fname : String)
    (info : fileChunkInfo) (rest : List fileChunkInfo) (srv : mockStorageServer) (e : String)
    (hsrv : servers[info.Order]? = some srv) (hfail : srv.GetChunk rid = Except.error e) :
    ∀ (pre : List fileChunkInfo), (∀ p ∈ pre, fetchOk servers rid p) →
    ∀ (fetched : List (Nat × chunk)) (buf : List Byte),
      (downloadLoop servers rid fname (pre ++ info :: rest) fetched buf).1 = DownloadResult.chunkError := by
  intro pre
  induction pre with
  | nil =>
    intro _ fetched buf
    simp [downloadLoop, hsrv, hfail]
  | cons p t ih =>
    intro hall fetched buf
    obtain ⟨s, ch, h1, h2, h3⟩ := hall p (by simp)
    obtain ⟨x, hx⟩ : ∃ x, ch.data.slice 0 10 = some x := by
      cases hc : ch.data.slice 0 10
      · exact absurd hc h3
      · exact ⟨_, rfl⟩
    simp only [List.cons_append, downloadLoop, h1, h2, hx]
    exact ih (fun q hq => hall q (by simp [hq])) _ _

/-- C8: if a GetChunk call fails during download, after any prefix of records
that fetch cleanly, the whole retrieval aborts with the chunk-error failure
and no ok result carrying content is produced. -/
theorem download_aborts_on_getchunk_failure (st : SysState) (rid : String) (hrid : rid ≠ "")
    (pre rest : List fileChunkInfo) (info : fileChunkInfo)
    (hdb : mapGet st.fileChunksDB rid = some (pre ++ info :: rest))
    (hpre : ∀ p ∈ pre, fetchOk st.servers rid p)
    (srv : mockStorageServer) (hsrv : st.servers[info.Order]? = some srv)
    (e : String) (hfail : srv.GetChunk rid = Except.error e) :
    (downloadHandler st rid).1 = DownloadResult.chunkError
    ∧ ∀ fn bs, (downloadHandler st rid).1 ≠ DownloadResult.ok fn bs := by
  have hmain : (downloadHandler st rid).1 = DownloadResult.chunkError := by
    cases hpc : pre ++ info :: rest with
    | nil => exact absurd hpc (List.append_ne_nil_of_right_ne_nil pre (List.cons_ne_nil info rest))
    | cons c cs =>
      have hh : downloadHandler st rid = downloadLoop st.servers rid c.FileName (c :: cs) [] [] := by
        simp [downloadHandler, hrid, hdb, hpc]
      rw [hh, ← hpc]
      exact downloadLoop_abort st.servers rid c.FileName info rest srv e hsrv hfail pre hpre [] []
  refine ⟨hmain, fun fn bs h => ?_⟩
  rw [hmain] at h
  exact absurd h (by simp)

theorem download_aborts_on_getchunk_failure_witness :
    (newStorageClient "s0").GetChunk "r" = Except.error (notFoundMsg "r")
    ∧ (downloadHandler failingFetchState "r").1 = DownloadResult.chunkError :=
  ⟨rfl,
   (download_aborts_on_getchunk_failure failingFetchState "r" (by decide) [] []
     (mkRecord "r" "f.txt" 0) rfl (fun p hp => absurd hp (List.not_mem_nil p))
     (newStorageClient "s0") rfl (notFoundMsg "r") rfl).1⟩

theorem downloadLoop_log_src (servers : List mockStorageServer) (rid fname : String) :
    ∀ (records : List fileChunkInfo) (fetched : List (Nat × chunk)) (buf : List Byte),
    ∀ p ∈ (downloadLoop servers rid fname records fetched buf).2,
      p ∈ fetched ∨ ∃ s, servers[p.1]? = some s ∧ s.GetChunk rid = Except.ok p.2 := by
  intro records
  induction records with
  | nil =>
    intro fetched buf p hp
    exact Or.inl (by simpa [downloadLoop] using hp)
  | cons info rest ih =>
    intro fetched buf p hp
    rcases hg : servers[info.Order]? with _ | srv
    · simp only [downloadLoop, hg] at hp
      exact Or.inl hp
    · rcases hc : srv.GetChunk rid with e | ch
      · simp only [downloadLoop, hg, hc] at hp
        exact Or.inl hp
      · rcases hs : ch.data.slice 0 10 with _ | x
        · simp only [downloadLoop, hg, hc, hs] at hp
          rcases List.mem_append.mp hp with h | h
          · exact Or.inl h
          · have hpq : p = (info.Order, ch) := by simpa using h
            subst hpq
            exact Or.inr ⟨srv, hg, hc⟩
        · simp only [downloadLoop, hg, hc, hs] at hp
          rcases ih _ _ p hp with h | h
          · rcases List.mem_append.mp h with h1 | h1
            · exact Or.inl h1
            · have hpq : p = (info.Order, ch) := by simpa using h1
              subst hpq
              exact Or.inr ⟨srv, hg, hc⟩
          · exact Or.inr h

theorem downloadLoop_log_take (servers : List mockStorageServer) (rid fname : String) :
    ∀ (records : List fileChunkInfo) (fetched : List (Nat × chunk)) (buf : List Byte),
    ∃ k, (downloadLoop servers rid fname records fetched buf).2.map Prod.fst
        = fetched.map Prod.fst ++ (records.map (fun r => r.Order)).take k
      ∧ (∀ fn bs, (downloadLoop servers rid fname records fetched buf).1 = DownloadResult.ok fn bs →
          k = records.length) := by
  intro records
  induction records with
  | nil =>
    intro fetched buf
    exact ⟨0, by simp [downloadLoop], fun _ _ _ => rfl⟩
  | cons info rest ih =>
    intro fetched buf
    rcases hg : servers[info.Order]? with _ | srv
    · exact ⟨0, by simp [downloadLoop, hg], fun fn bs h => by simp [downloadLoop, hg] at h⟩
    · rcases hc : srv.GetChunk rid with e | ch
      · exact ⟨0, by simp [downloadLoop, hg, hc], fun fn bs h => by simp [downloadLoop, hg, hc] at h⟩
      · rcases hs : ch.data.slice 0 10 with _ | x
        · refine ⟨1, ?_, fun fn bs h => by simp [downloadLoop, hg, hc, hs] at h⟩
          simp [downloadLoop, hg, hc, hs]
        · obtain ⟨k, hk1, hk2⟩ := ih (fetched ++ [(info.Order, ch)]) (buf ++ ch.data.bytes)
          refine ⟨k + 1, ?_, fun fn bs h => ?_⟩
          · simp only [downloadLoop, hg, hc, hs]
            rw [hk1]
            simp [List.take_succ_cons]
          · have hr : (downloadLoop servers rid fname rest (fetched ++ [(info.Order, ch)])
                (buf ++ ch.data.bytes)).1 = DownloadResult.ok fn bs := by
              simpa only [downloadLoop, hg, hc, hs] using h
            simp [hk2 fn bs hr]

/-- C5 amended: downloadHandler fetches chunks sequentially in the stored
list order of the Registry entry, a prefix of it on abort and all of it when
the download returns ok, taking each chunk from the backend whose index is
the record's Order field; the stored order is registry append arrival order
and need not be ascending in Order. -/
theorem download_follows_stored_order (st : SysState) (rid : String) (hrid : rid ≠ "")
    (c : fileChunkInfo) (cs : List fileChunkInfo)
    (hdb : mapGet st.fileChunksDB rid = some (c :: cs)) :
    (∃ k, (downloadHandler st rid).2.map Prod.fst = ((c :: cs).map (fun r => r.Order)).take k
      ∧ (∀ fn bs, (downloadHandler st rid).1 = DownloadResult.ok fn bs → k = (c :: cs).length))
    ∧ ∀ p ∈ (downloadHandler st rid).2,
        ∃ s, st.servers[p.1]? = some s ∧ s.GetChunk rid = Except.ok p.2 := by
  have hh : downloadHandler st rid = downloadLoop st.servers rid c.FileName (c :: cs) [] [] := by
    simp [downloadHandler, hrid, hdb]
  constructor
  · obtain ⟨k, h1, h2⟩ := downloadLoop_log_take st.servers rid c.FileName (c :: cs) [] []
    refine ⟨k, ?_, ?_⟩
    · rw [hh]
      simpa using h1
    · rw [hh]
      exact h2
  · intro p hp
    rw [hh] at hp
    rcases downloadLoop_log_src st.servers rid c.FileName (c :: cs) [] [] p hp with h | h
    · exact absurd h (List.not_mem_nil p)
    · exact h

theorem download_follows_stored_order_witness :
    mapGet shortChunkState.fileChunksDB "r"
      = some [mkRecord "r" "f.txt" 0, mkRecord "r" "f.txt" 1]
    ∧ ((∃ k, (downloadHandler shortChunkState "r").2.map Prod.fst
          = (([mkRecord "r" "f.txt" 0, mkRecord "r" "f.txt" 1]).map (fun r => r.Order)).take k
        ∧ (∀ fn bs, (downloadHandler shortChunkState "r").1 = DownloadResult.ok fn bs →
            k = ([mkRecord "r" "f.txt" 0, mkRecord "r" "f.txt" 1]).length))
      ∧ ∀ p ∈ (downloadHandler shortChunkState "r").2,
          ∃ s, shortChunkState.servers[p.1]? = some s ∧ s.GetChunk "r" = Except.ok p.2) :=
  ⟨rfl, download_follows_stored_order shortChunkState "r" (by decide)
    (mkRecord "r" "f.txt" 0) [mkRecord "r" "f.txt" 1] rfl⟩

theorem slice_none_cap (s : GoSlice) (h : s.slice 0 10 = none) : s.cap < 10 := by
  by_contra hc
  have := (slice_ten_iff s).mpr (by omega)
  exact this h

theorem slice_some_cap (s : GoSlice) (x : GoSlice) (h : s.slice 0 10 = some x) : 10 ≤ s.cap := by
  by_cases hc : 10 ≤ s.cap
  · exact hc
  · simp [GoSlice.slice, fun hh => hc hh] at h

theorem downloadLoop_cap_mem (servers : List mockStorageServer) (rid fname : String) :
    ∀ (records : List fileChunkInfo) (fetched : List (Nat × chunk)) (buf : List Byte),
    ∀ p ∈ (downloadLoop servers rid fname records fetched buf).2,
      p ∈ fetched ∨ 10 ≤ p.2.data.cap ∨
        ((downloadLoop servers rid fname records fetched buf).1 = DownloadResult.panicked
          ∧ p.2.data.cap < 10) := by
  intro records
  induction records with
  | nil =>
    intro fetched buf p hp
    exact Or.inl (by simpa [downloadLoop] using hp)
  | cons info rest ih =>
    intro fetched buf p hp
    rcases hg : servers[info.Order]? with _ | srv
    · simp only [downloadLoop, hg] at hp
      exact Or.inl hp
    · rcases hc : srv.GetChunk rid with e | ch
      · simp only [downloadLoop, hg, hc] at hp
        exact Or.inl hp
      · rcases hs : ch.data.slice 0 10 with _ | x
        · have hres : downloadLoop servers rid fname (info :: rest) fetched buf
              = (DownloadResult.panicked, fetched ++ [(info.Order, ch)]) := by
            simp [downloadLoop, hg, hc, hs]
          rw [hres] at hp ⊢
          rcases List.mem_append.mp hp with h | h
          · exact Or.inl h
          · have hpq : p = (info.Order, ch) := by simpa using h
            subst hpq
            exact Or.inr (Or.inr ⟨rfl, slice_none_cap ch.data hs⟩)
        · have hres : downloadLoop servers rid fname (info :: rest) fetched buf
              = downloadLoop servers rid fname rest (fetched ++ [(info.Order, ch)])
                  (buf ++ ch.data.bytes) := by
            simp only [downloadLoop, hg, hc, hs]
          rw [hres] at hp ⊢
          rcases ih _ _ p hp with h | h | h
          · rcases List.mem_append.mp h with h1 | h1
            · exact Or.inl h1
            · have hpq : p = (info.Order, ch) := by simpa using h1
              subst hpq
              exact Or.inr (Or.inl (slice_some_cap ch.data x hs))
          · exact Or.inr (Or.inl h)
          · exact Or.inr (Or.inr h)

theorem downloadLoop_ok_len (servers : List mockStorageServer) (rid fname : String) :
    ∀ (records : List fileChunkInfo) (fetched : List (Nat × chunk)) (buf : List Byte)
      (fn : String) (bs : List Byte),
      (downloadLoop servers rid fname records fetched buf).1 = DownloadResult.ok fn bs →
      10 ≤ bs.length := by
  intro records
  induction records with
  | nil =>
    intro fetched buf fn bs h
    by_cases hb : buf.length < 10
    · simp [downloadLoop, hb] at h
    · simp only [downloadLoop, if_neg hb] at h
      have h2 : DownloadResult.ok fname buf = DownloadResult.ok fn bs := h
      injection h2 with h3 h4
      subst h4
      omega
  | cons info rest ih =>
    intro fetched buf fn bs h
    rcases hg : servers[info.Order]? with _ | srv
    · simp [downloadLoop, hg] at h
    · rcases hc : srv.GetChunk rid with e | ch
      · simp [downloadLoop, hg, hc] at h
      · rcases hs : ch.data.slice 0 10 with _ | x
        · simp [downloadLoop, hg, hc, hs] at h
        · exact ih (fetched ++ [(info.Order, ch)]) (buf ++ ch.data.bytes) fn bs
            (by simpa only [downloadLoop, hg, hc, hs] using h)

/-- C10 amended: the logged slice expression data[:10] panics on capacity,
not length: any fetched chunk of capacity below 10 makes downloadHandler
panic, and a download that returns ok had every fetched chunk of capacity at
least 10 and assembled content of at least 10 bytes. -/
theorem download_panic_capacity_condition (st : SysState) (rid : String) :
    (∀ p ∈ (downloadHandler st rid).2, p.2.data.cap < 10 →
        (downloadHandler st rid).1 = DownloadResult.panicked)
    ∧ (∀ fn bs, (downloadHandler st rid).1 = DownloadResult.ok fn bs →
        10 ≤ bs.length ∧ ∀ p ∈ (downloadHandler st rid).2, 10 ≤ p.2.data.cap) := by
  by_cases hrid : rid = ""
  · simp [downloadHandler, hrid]
  · rcases hdb : mapGet st.fileChunksDB rid with _ | chunks
    · simp [downloadHandler, hrid, hdb]
    · cases chunks with
      | nil => simp [downloadHandler, hrid, hdb]
      | cons c cs =>
        have hh : downloadHandler st rid = downloadLoop st.servers rid c.FileName (c :: cs) [] [] := by
          simp [downloadHandler, hrid, hdb]
        rw [hh]
        constructor
        · intro p hp hcap
          rcases downloadLoop_cap_mem st.servers rid c.FileName (c :: cs) [] [] p hp with h | h | h
          · exact absurd h (List.not_mem_nil p)
          · omega
          · exact h.1
        · intro fn bs hok
          refine ⟨downloadLoop_ok_len st.servers rid c.FileName (c :: cs) [] [] fn bs hok, ?_⟩
          intro p hp
          rcases downloadLoop_cap_mem st.servers rid c.FileName (c :: cs) [] [] p hp with h | h | h
          · exact absurd h (List.not_mem_nil p)
          · exact h
          · rw [hok] at h
            exact absurd h.1 (by simp)

theorem download_panic_capacity_condition_witness :
    10 ≤ ([1, 2, 3, 4, 5, 20, 21, 22, 23, 24, 25, 26, 27, 28, 29] : List Byte).length
    ∧ ∀ p ∈ (downloadHandler shortChunkState "r").2, 10 ≤ p.2.data.cap :=
  (download_panic_capacity_condition shortChunkState "r").2 "f.txt"
    [1, 2, 3, 4, 5, 20, 21, 22, 23, 24, 25, 26, 27, 28, 29] (by decide)

theorem applySaves_append (s : mockStorageServer) (l1 l2 : List (String × Nat × GoSlice)) :
    applySaves s (l1 ++ l2) = applySaves (applySaves s l1) l2 := by
  induction l1 generalizing s with
  | nil => rfl
  | cons hd t ih =>
    obtain ⟨nm, o, d⟩ := hd
    simp [applySaves, ih]

theorem applySaves_avoid (ops : List (String × Nat × GoSlice)) (nm : String) :
    ∀ s : mockStorageServer, (∀ p ∈ ops, p.1 ≠ nm) →
    mapGet (applySaves s ops).storage nm = mapGet s.storage nm := by
  induction ops with
  | nil => intro s _; rfl
  | cons hd t ih =>
    obtain ⟨k, o, d⟩ := hd
    intro s hall
    have hk : k ≠ nm := hall (k, o, d) (by simp)
    rw [applySaves, ih _ (fun p hp => hall p (by simp [hp]))]
    exact mapGet_mapSet_ne s.storage k nm _ (Ne.symm hk)

theorem applySaves_stored (ops : List (String × Nat × GoSlice)) (nm : String) :
    ∀ s : mockStorageServer, (∃ ch, mapGet s.storage nm = some ch) →
    ∃ ch, mapGet (applySaves s ops).storage nm = some ch := by
  induction ops with
  | nil => exact fun s h => h
  | cons hd t ih =>
    obtain ⟨k, o, d⟩ := hd
    intro s h
    apply ih
    by_cases hk : k = nm
    · subst hk
      exact ⟨{ order := o, data := d }, mapGet_mapSet_self s.storage k _⟩
    · obtain ⟨ch, hch⟩ := h
      refine ⟨ch, ?_⟩
      rw [mockStorageServer.SaveChunk]
      rw [mapGet_mapSet_ne s.storage k nm _ (Ne.symm hk)]
      exact hch

theorem applySaves_hit (ops : List (String × Nat × GoSlice)) (nm : String) :
    ∀ s : mockStorageServer, (∃ p ∈ ops, p.1 = nm) →
    ∃ ch, mapGet (applySaves s ops).storage nm = some ch := by
  induction ops with
  | nil =>
    rintro s ⟨p, hp, _⟩
    exact absurd hp (List.not_mem_nil p)
  | cons hd t ih =>
    obtain ⟨k, o, d⟩ := hd
    rintro s ⟨p, hp, hpnm⟩
    rcases List.mem_cons.mp hp with rfl | hmem
    · apply applySaves_stored t nm
      have hk : k = nm := hpnm
      subst hk
      exact ⟨{ order := o, data := d }, mapGet_mapSet_self s.storage k _⟩
    · exact ih _ ⟨p, hmem, hpnm⟩

theorem countP_mapSet_ne {A : Type} (t : List (String × A)) (k nm : String) (v : A)
    (hk : k ≠ nm) :
    (mapSet t k v).countP (fun p => p.1 == nm) = t.countP (fun p => p.1 == nm) := by
  induction t with
  | nil => simp [mapSet, List.countP_cons, hk]
  | cons hd t ih =>
    obtain ⟨k1, v1⟩ := hd
    by_cases hk1 : k1 = k
    · subst hk1
      simp [mapSet, List.countP_cons]
    · simp only [mapSet, if_neg hk1, List.countP_cons, ih]

theorem countP_mapSet_le {A : Type} (t : List (String × A)) (nm : String) (v : A) :
    (mapSet t nm v).countP (fun p => p.1 == nm) ≤ max (t.countP (fun p => p.1 == nm)) 1 := by
  induction t with
  | nil => simp [mapSet, List.countP_cons]
  | cons hd t ih =>
    obtain ⟨k1, v1⟩ := hd
    by_cases hk1 : k1 = nm
    · subst hk1
      simp [mapSet, List.countP_cons]
    · have hb : (k1 == nm) = false := by simp [hk1]
      simp only [mapSet, if_neg hk1, List.countP_cons, hb, Bool.false_eq_true, if_false]
      omega

theorem applySaves_countP (ops : List (String × Nat × GoSlice)) (nm : String) :
    ∀ s : mockStorageServer, s.storage.countP (fun p => p.1 == nm) ≤ 1 →
    (applySaves s ops).storage.countP (fun p => p.1 == nm) ≤ 1 := by
  induction ops with
  | nil => exact fun s h => h
  | cons hd t ih =>
    obtain ⟨k, o, d⟩ := hd
    intro s h
    apply ih
    by_cases hk : k = nm
    · subst hk
      have := countP_mapSet_le s.storage k ({ order := o, data := d } : chunk)
      simp only [mockStorageServer.SaveChunk]
      omega
    · simp only [mockStorageServer.SaveChunk]
      rw [countP_mapSet_ne s.storage k nm _ hk]
      exact h

/-- C9: on a fresh in-memory backend, after any sequence of SaveChunk calls,
GetChunk for a name fails with the not-found error exactly when no save ever
used that name; otherwise it returns the most recently saved chunk for that
name; and the store, keyed by the name alone, holds at most one chunk per
name, later saves overwriting earlier ones. -/
theorem mock_getchunk_semantics (a nm : String) (ops : List (String × Nat × GoSlice)) :
    ((applySaves (newStorageClient a) ops).GetChunk nm = Except.error (notFoundMsg nm)
      ↔ ∀ p ∈ ops, p.1 ≠ nm)
    ∧ (∀ l1 l2 (o : Nat) (d : GoSlice), ops = l1 ++ (nm, o, d) :: l2 →
        (∀ p ∈ l2, p.1 ≠ nm) →
        (applySaves (newStorageClient a) ops).GetChunk nm
          = Except.ok { order := o, data := d })
    ∧ (applySaves (newStorageClient a) ops).storage.countP (fun p => p.1 == nm) ≤ 1 := by
  refine ⟨⟨?_, ?_⟩, ?_, ?_⟩
  · intro herr
    by_contra hex
    push_neg at hex
    obtain ⟨p, hp, hpnm⟩ := hex
    obtain ⟨ch, hch⟩ := applySaves_hit ops nm _ ⟨p, hp, hpnm⟩
    rw [mockStorageServer.GetChunk, hch] at herr
    exact absurd herr (by simp)
  · intro hall
    have hm : mapGet (applySaves (newStorageClient a) ops).storage nm = none := by
      rw [applySaves_avoid ops nm _ hall]
      rfl
    simp [mockStorageServer.GetChunk, hm]
  · intro l1 l2 o d hops hl2
    subst hops
    rw [applySaves_append, applySaves]
    have hm : mapGet (applySaves ((applySaves (newStorageClient a) l1).SaveChunk nm o d) l2).storage nm
        = some { order := o, data := d } := by
      rw [applySaves_avoid l2 nm _ hl2]
      exact mapGet_mapSet_self _ _ _
    simp [mockStorageServer.GetChunk, hm]
  · exact applySaves_countP ops nm _ (by simp [newStorageClient])

theorem mock_getchunk_semantics_witness :
    (∀ p ∈ ([("z", 2, GoSlice.ofList [3])] : List (String × Nat × GoSlice)), p.1 ≠ "k")
    ∧ (applySaves (newStorageClient "a")
        [("k", 0, GoSlice.ofList [1]), ("k", 1, GoSlice.ofList [2]), ("z", 2, GoSlice.ofList [3])]).GetChunk "k"
        = Except.ok { order := 1, data := GoSlice.ofList [2] } :=
  ⟨by decide,
   (mock_getchunk_semantics "a" "k"
      [("k", 0, GoSlice.ofList [1]), ("k", 1, GoSlice.ofList [2]), ("z", 2, GoSlice.ofList [3])]).2.1
     [("k", 0, GoSlice.ofList [1])] [("z", 2, GoSlice.ofList [3])] 1 (GoSlice.ofList [2]) rfl (by decide)⟩

theorem filter_swap_mem {l : List Nat} {p q : Nat → Bool} {i : Nat}
    (hmem : i ∈ l) (hnd : l.Nodup) (hpi : p i = false) (hqi : q i = true)
    (hagree : ∀ j, j ≠ i → p j = q j) :
    (l.filter q).Perm (i :: l.filter p) := by
  induction l with
  | nil => exact absurd hmem (List.not_mem_nil i)
  | cons a t ih =>
    rcases List.nodup_cons.mp hnd with ⟨hat, hndt⟩
    by_cases hai : a = i
    · subst hai
      rw [List.filter_cons_of_pos hqi, List.filter_cons_of_neg (by simp [hpi])]
      have ht : t.filter q = t.filter p := by
        refine (List.filter_congr fun x hx => ?_).symm
        exact hagree x (fun hxi => hat (hxi ▸ hx))
      rw [ht]
    · have hmt : i ∈ t := by
        rcases List.mem_cons.mp hmem with h | h
        · exact absurd h.symm hai
        · exact h
      have hpq : p a = q a := hagree a hai
      cases hpa : p a with
      | true =>
        rw [List.filter_cons_of_pos (hpq ▸ hpa), List.filter_cons_of_pos hpa]
        exact ((ih hmt hndt).cons a).trans (List.Perm.swap i a _)
      | false =>
        rw [List.filter_cons_of_neg (by simp [hpq ▸ hpa]), List.filter_cons_of_neg (by simp [hpa])]
        exact ih hmt hndt

/-- Invariant of one in-flight upload with fresh resource identifier rid:
the registry entry holds exactly the records of the tasks that passed their
locked append (in some arrival order), and backend j holds the chunk for
part j exactly when task j completed its SaveChunk. -/
structure UploadInv (rid fname : String) (parts : List GoSlice) (N : Nat) (u : UploadRun) : Prop where
  pcs_len : u.pcs.length = N
  srv_len : u.sys.servers.length = N
  reg : (dbGet u.sys rid).Perm
      (((List.range N).filter (fun j => decide (1 ≤ u.pcs.getD j 0))).map (mkRecord rid fname))
  srv : ∀ j, j < N → ∀ s, u.sys.servers[j]? = some s →
      mapGet s.storage rid
        = (if u.pcs.getD j 0 = 2 then some { order := j, data := parts.getD j default } else none)

theorem taskStep_inv (rid fname : String) (parts : List GoSlice) (N : Nat) (u : UploadRun)
    (i : Nat) (hInv : UploadInv rid fname parts N u) :
    UploadInv rid fname parts N (taskStep rid fname parts u i) := by
  rcases hpc : u.pcs[i]? with _ | pc
  · have he : taskStep rid fname parts u i = u := by simp [taskStep, hpc]
    rw [he]
    exact hInv
  · have hlen : i < u.pcs.length := (List.getElem?_eq_some.mp hpc).1
    have hiN : i < N := hInv.pcs_len ▸ hlen
    rcases pc with _ | _ | n
    · -- pc = 0: the locked registry append
      have he : taskStep rid fname parts u i
          = { sys := appendRecord u.sys rid fname i, pcs := u.pcs.set i 1 } := by
        simp [taskStep, hpc]
      rw [he]
      have hgD0 : u.pcs.getD i 0 = 0 := by
        rw [List.getD_eq_getElem?_getD, hpc]
        rfl
      refine ⟨by simp [hInv.pcs_len], hInv.srv_len, ?_, ?_⟩
      · dsimp only
        have hdbg : dbGet (appendRecord u.sys rid fname i) rid
            = dbGet u.sys rid ++ [mkRecord rid fname i] := by
          simp [appendRecord, dbGet, mapGet_mapSet_self]
        rw [hdbg]
        have hset : (u.pcs.set i 1)[i]? = some 1 := by
          rw [List.getElem?_set_self]
          exact hlen
        have hq : (fun j => decide (1 ≤ (u.pcs.set i 1).getD j 0)) i = true := by
          simp [List.getD_eq_getElem?_getD, hset]
        have hp : (fun j => decide (1 ≤ u.pcs.getD j 0)) i = false := by
          simp [List.getD_eq_getElem?_getD, hpc]
        have hagree : ∀ j, j ≠ i → (fun j => decide (1 ≤ u.pcs.getD j 0)) j
            = (fun j => decide (1 ≤ (u.pcs.set i 1).getD j 0)) j := by
          intro j hj
          have hne : (u.pcs.set i 1)[j]? = u.pcs[j]? :=
            List.getElem?_set_ne (fun hh => hj hh.symm)
          simp [List.getD_eq_getElem?_getD, hne]
        have hswap := filter_swap_mem (l := List.range N)
          (List.mem_range.mpr hiN) (List.nodup_range N) hp hq hagree
        have hmap := hswap.map (mkRecord rid fname)
        have h0 : (dbGet u.sys rid ++ [mkRecord rid fname i]).Perm
            (mkRecord rid fname i :: dbGet u.sys rid) :=
          List.perm_append_comm.trans (by simp)
        exact h0.trans ((hInv.reg.cons _).trans hmap.symm)
      · intro j hj s hs
        dsimp only at hs ⊢
        have hval := hInv.srv j hj s hs
        rw [hval]
        have hcond : (u.pcs.set i 1).getD j 0 = 2 ↔ u.pcs.getD j 0 = 2 := by
          by_cases hji : j = i
          · subst hji
            have hset : (u.pcs.set j 1)[j]? = some 1 := by
              rw [List.getElem?_set_self]
              exact hlen
            simp [List.getD_eq_getElem?_getD, hset, hpc]
          · have hne : (u.pcs.set i 1)[j]? = u.pcs[j]? :=
              List.getElem?_set_ne (fun hh => hji hh.symm)
            simp [List.getD_eq_getElem?_getD, hne]
        by_cases h2 : u.pcs.getD j 0 = 2
        · rw [if_pos h2, if_pos (hcond.mpr h2)]
        · rw [if_neg h2, if_neg (fun hh => h2 (hcond.mp hh))]
    · -- pc = 1: the SaveChunk call
      have he : taskStep rid fname parts u i
          = { sys := saveOnServer u.sys i rid (parts.getD i default), pcs := u.pcs.set i 2 } := by
        simp [taskStep, hpc]
      rw [he]
      have hgD1 : u.pcs.getD i 0 = 1 := by
        rw [List.getD_eq_getElem?_getD, hpc]
        rfl
      have hisrv : i < u.sys.servers.length := by
        rw [hInv.srv_len]
        exact hiN
      obtain ⟨srv0, hsrv0⟩ : ∃ srv0, u.sys.servers[i]? = some srv0 :=
        ⟨u.sys.servers[i], List.getElem?_eq_getElem hisrv⟩
      have hsave : saveOnServer u.sys i rid (parts.getD i default)
          = { u.sys with
              servers := u.sys.servers.set i (srv0.SaveChunk rid i (parts.getD i default)) } := by
        simp [saveOnServer, hsrv0]
      rw [hsave]
      refine ⟨by simp [hInv.pcs_len], by simp [hInv.srv_len], ?_, ?_⟩
      · dsimp only
        have hfc : ((List.range N).filter (fun j => decide (1 ≤ (u.pcs.set i 2).getD j 0)))
            = ((List.range N).filter (fun j => decide (1 ≤ u.pcs.getD j 0))) := by
          refine (List.filter_congr fun j hjmem => ?_).symm
          by_cases hji : j = i
          · subst hji
            have hset : (u.pcs.set j 2)[j]? = some 2 := by
              rw [List.getElem?_set_self]
              exact hlen
            simp [List.getD_eq_getElem?_getD, hset, hpc]
          · have hne : (u.pcs.set i 2)[j]? = u.pcs[j]? :=
              List.getElem?_set_ne (fun hh => hji hh.symm)
            simp [List.getD_eq_getElem?_getD, hne]
        rw [hfc]
        exact hInv.reg
      · intro j hj s hs
        dsimp only at hs ⊢
        by_cases hji : j = i
        · subst hji
          have hset : (u.sys.servers.set j (srv0.SaveChunk rid j (parts.getD j default)))[j]?
              = some (srv0.SaveChunk rid j (parts.getD j default)) := by
            rw [List.getElem?_set_self]
            exact hisrv
          have hseq : s = srv0.SaveChunk rid j (parts.getD j default) :=
            Option.some.inj (hs.symm.trans hset)
          have hpcset : (u.pcs.set j 2).getD j 0 = 2 := by
            have h2 : (u.pcs.set j 2)[j]? = some 2 := by
              rw [List.getElem?_set_self]
              exact hlen
            simp [List.getD_eq_getElem?_getD, h2]
          rw [hseq, if_pos hpcset]
          exact mapGet_mapSet_self _ _ _
        · have hne : (u.sys.servers.set i (srv0.SaveChunk rid i (parts.getD i default)))[j]?
              = u.sys.servers[j]? := List.getElem?_set_ne (fun hh => hji hh.symm)
          rw [hne] at hs
          have hpcne : (u.pcs.set i 2).getD j 0 = u.pcs.getD j 0 := by
            have hx : (u.pcs.set i 2)[j]? = u.pcs[j]? :=
              List.getElem?_set_ne (fun hh => hji hh.symm)
            simp [List.getD_eq_getElem?_getD, hx]
          rw [hpcne]
          exact hInv.srv j hj s hs
    · -- pc ≥ 2: task finished, no-op
      have he : taskStep rid fname parts u i = u := by simp [taskStep, hpc]
      rw [he]
      exact hInv

theorem runSchedule_inv (rid fname : String) (parts : List GoSlice) (N : Nat)
    (sched : List Nat) :
    ∀ u, UploadInv rid fname parts N u →
      UploadInv rid fname parts N (runSchedule rid fname parts u sched) := by
  induction sched with
  | nil => exact fun u h => h
  | cons a t ih =>
    intro u h
    exact ih _ (taskStep_inv rid fname parts N u a h)

theorem upload_inv_init (rid fname : String) (parts : List GoSlice) (N : Nat) (st1 : SysState)
    (hplen : parts.length = N) (hsl : st1.servers.length = N)
    (hfresh : ∀ s ∈ st1.servers, mapGet s.storage rid = none)
    (hdb : dbGet st1 rid = []) :
    UploadInv rid fname parts N { sys := st1, pcs := List.replicate parts.length 0 } := by
  have hgd : ∀ j, (List.replicate parts.length (0 : Nat)).getD j 0 = 0 := by
    intro j
    rw [List.getD_eq_getElem?_getD, List.getElem?_replicate]
    by_cases hj : j < parts.length <;> simp [hj]
  refine ⟨by simp [hplen], hsl, ?_, ?_⟩
  · dsimp only
    rw [hdb]
    have hnil : ((List.range N).filter
        (fun j => decide (1 ≤ (List.replicate parts.length (0 : Nat)).getD j 0))) = [] := by
      refine List.filter_eq_nil_iff.mpr fun j _ => ?_
      simp [hgd j]
    rw [hnil]
    simp
  · intro j hj s hs
    dsimp only at hs ⊢
    obtain ⟨hlt, rfl⟩ := List.getElem?_eq_some.mp hs
    rw [hgd j]
    simp [hfresh _ (List.getElem_mem hlt)]

theorem uploadHandler_final_inv (hashHex : List Byte → String) (st0 : SysState)
    (rid fname : String) (content : List Byte) (sched : List Nat)
    (hfresh : ∀ s ∈ st0.servers, mapGet s.storage rid = none) :
    UploadInv rid fname
      (splitFile (ioReadAll { data := content, pos := content.length }).1 st0.servers.length)
      st0.servers.length
      (uploadHandler hashHex st0 rid fname content sched).final := by
  have hfin : (uploadHandler hashHex st0 rid fname content sched).final
      = runSchedule rid fname
          (splitFile (ioReadAll { data := content, pos := content.length }).1 st0.servers.length)
          { sys := { st0 with fileChunksDB := mapSet st0.fileChunksDB rid [] },
            pcs := List.replicate
              (splitFile (ioReadAll { data := content, pos := content.length }).1
                st0.servers.length).length 0 }
          sched := rfl
  rw [hfin]
  apply runSchedule_inv
  apply upload_inv_init
  · exact splitFile_length _ _
  · rfl
  · exact hfresh
  · simp [dbGet, mapGet_mapSet_self]

/-- C6: for every upload onto N ≥ 1 backends fresh for the resource
identifier, under every schedule whose run completes both steps of every
task, the Order values of the Registry records stored for the resource are a
permutation of the range 0..N-1: no gaps and no duplicates. -/
theorem upload_orders_complete_range (hashHex : List Byte → String) (st0 : SysState)
    (rid fname : String) (content : List Byte) (sched : List Nat)
    (hN : 1 ≤ st0.servers.length)
    (hfresh : ∀ s ∈ st0.servers, mapGet s.storage rid = none)
    (hcomp : ∀ j, j < st0.servers.length →
      (uploadHandler hashHex st0 rid fname content sched).final.pcs.getD j 0 = 2) :
    ((dbGet (uploadHandler hashHex st0 rid fname content sched).final.sys rid).map
      (fun r => r.Order)).Perm (List.range st0.servers.length) := by
  have hInvF := uploadHandler_final_inv hashHex st0 rid fname content sched hfresh
  have hfilter : ((List.range st0.servers.length).filter
      (fun j => decide (1 ≤ (uploadHandler hashHex st0 rid fname content sched).final.pcs.getD j 0)))
      = List.range st0.servers.length := by
    refine List.filter_eq_self.mpr fun j hjmem => ?_
    have hj : j < st0.servers.length := List.mem_range.mp hjmem
    rw [hcomp j hj]
    rfl
  have hperm := hInvF.reg.map (fun r => r.Order)
  rw [hfilter, List.map_map] at hperm
  have hid : ((List.range st0.servers.length).map ((fun r => r.Order) ∘ mkRecord rid fname))
      = List.range st0.servers.length := by
    have : ((fun (r : fileChunkInfo) => r.Order) ∘ mkRecord rid fname) = fun j => j := rfl
    rw [this, List.map_id']
  rw [hid] at hperm
  exact hperm

set_option maxRecDepth 8000 in
theorem upload_orders_complete_range_witness :
    1 ≤ oneServerState.servers.length
    ∧ (∀ s ∈ oneServerState.servers, mapGet s.storage "r" = none)
    ∧ (∀ j, j < oneServerState.servers.length →
        (uploadHandler trivialHash oneServerState "r" "f.txt" [9] [0, 0]).final.pcs.getD j 0 = 2)
    ∧ ((dbGet (uploadHandler trivialHash oneServerState "r" "f.txt" [9] [0, 0]).final.sys "r").map
        (fun r => r.Order)).Perm (List.range oneServerState.servers.length) :=
  ⟨by decide, by decide, by decide,
   upload_orders_complete_range trivialHash oneServerState "r" "f.txt" [9] [0, 0]
     (by decide) (by decide) (by decide)⟩

/-- C2 amended: in uploadFn the locked registry append is the first atomic
action of a task and its SaveChunk the second, so in every reachable state a
backend that holds the chunk of part j implies the record for part j is
already visible in the Registry (the append precedes the save, the reverse
of the claimed order). -/
theorem registry_append_precedes_save (hashHex : List Byte → String) (st0 : SysState)
    (rid fname : String) (content : List Byte) (sched : List Nat)
    (hfresh : ∀ s ∈ st0.servers, mapGet s.storage rid = none) :
    ∀ j s ch, (uploadHandler hashHex st0 rid fname content sched).final.sys.servers[j]? = some s →
      mapGet s.storage rid = some ch →
      mkRecord rid fname j ∈ dbGet (uploadHandler hashHex st0 rid fname content sched).final.sys rid := by
  have hInvF := uploadHandler_final_inv hashHex st0 rid fname content sched hfresh
  intro j s ch hs hch
  have hjN : j < st0.servers.length := hInvF.srv_len ▸ (List.getElem?_eq_some.mp hs).1
  have hval := hInvF.srv j hjN s hs
  by_cases h2 : (uploadHandler hashHex st0 rid fname content sched).final.pcs.getD j 0 = 2
  · refine (hInvF.reg.mem_iff).mpr ?_
    refine List.mem_map.mpr ⟨j, List.mem_filter.mpr ⟨List.mem_range.mpr hjN, by rw [h2]; rfl⟩, rfl⟩
  · rw [if_neg h2] at hval
    rw [hval] at hch
    exact absurd hch (by simp)

set_option maxRecDepth 8000 in
theorem registry_append_precedes_save_witness :
    (∀ s ∈ oneServerState.servers, mapGet s.storage "r" = none)
    ∧ mapGet storedServer0.storage "r" = some (emptyStoredChunk 0)
    ∧ mkRecord "r" "f.txt" 0
        ∈ dbGet (uploadHandler trivialHash oneServerState "r" "f.txt" [9] [0, 0]).final.sys "r" :=
  ⟨by decide, by decide,
   registry_append_precedes_save trivialHash oneServerState "r" "f.txt" [9] [0, 0] (by decide)
     0 storedServer0 (emptyStoredChunk 0) (by decide) (by decide)⟩

end FileDistributor
